import Mathlib

/-!
Shallow embedding of `src/psbt/src/constructor.rs` (crate `psbt` of the `bp-std`
workspace): the `construct_psbt` default method of the `PsbtConstructor` trait,
together with the data model it operates on (`Payment`, `Beneficiary`,
`TxParams`, `Utxo`, `ChangeInfo`, `PsbtMeta`, `ConstructionError`).

Satoshi amounts (`Sats` in the source, defined in the workspace's `derive`
crate, which is not part of the provided sources) are modelled as `Nat` with
checked arithmetic bounded by the total-supply ceiling, following the spec.
The `Psbt` draft-transaction container (crate `psbt`, also outside the
provided sources) is modelled from the spec as lists of inputs and outputs
where an output's index is its position.  The wallet capability interface
(`descriptor`, `prev_tx`, `utxo`, `network`, `next_derivation_index`) is
modelled as a record of pure functions; the two side-effecting calls
(`next_derivation_index` and the `after_construct_psbt` hook) are tracked in
an explicit effect log returned alongside the result.
-/

namespace BpStd

/-- Modelled from the spec: satoshi amounts carry "a hard ceiling equal to
Bitcoin's fixed total supply" (21 000 000 BTC × 100 000 000 sat/BTC); the
`Sats` type of the `derive` crate is not among the provided sources. -/
def satCeiling : Nat := 2100000000000000

/-- Modelled from the spec: overflow-checked satoshi addition
(`Sats::checked_add_assign`), failing when the sum exceeds the supply
ceiling and leaving the accumulator unchanged on failure. -/
def checkedAdd (a b : Nat) : Option Nat :=
  if a + b ≤ satCeiling then some (a + b) else none

/-- Modelled from the spec: underflow-checked satoshi subtraction
(`Sats::checked_sub`). -/
def checkedSub (a b : Nat) : Option Nat :=
  if b ≤ a then some (a - b) else none

/-- An outpoint: previous transaction id plus output index.  `Txid` is
modelled as a bare `Nat` identifier. -/
structure Outpoint where
  txid : Nat
  vout : Nat
deriving DecidableEq, Repr

/-- An address, modelled from the spec as its network tag plus its
scriptPubkey (scripts are bare `Nat` identifiers). -/
structure Address where
  network : Nat
  spk : Nat
deriving DecidableEq, Repr

/-- `Payment`: a fixed satoshi amount or the `Max` sentinel
(`src/psbt/src/constructor.rs`, `enum Payment`). -/
inductive Payment where
  | Fixed (sats : Nat)
  | Max
deriving DecidableEq, Repr

/-- `Payment::sats` (`constructor.rs` line 96). -/
def Payment.sats : Payment → Option Nat
  | .Fixed s => some s
  | .Max => none

/-- `Payment::unwrap_or` (`constructor.rs` line 104). -/
def Payment.unwrap_or (p : Payment) (default : Nat) : Nat :=
  (p.sats).getD default

/-- `Payment::is_max` (`constructor.rs` line 109). -/
def Payment.is_max (p : Payment) : Bool :=
  decide (p = Payment.Max)

/-- `Beneficiary`: an address plus a payment (`constructor.rs` line 126). -/
structure Beneficiary where
  address : Address
  amount : Payment
deriving DecidableEq, Repr

/-- `Beneficiary::is_max` (`constructor.rs` line 147). -/
def Beneficiary.is_max (b : Beneficiary) : Bool :=
  b.amount.is_max

/-- `Beneficiary::script_pubkey` (`constructor.rs` line 149). -/
def Beneficiary.script_pubkey (b : Beneficiary) : Nat :=
  b.address.spk

/-- A derivation terminal: keychain plus index (`Keychain` and
`NormalIndex` are modelled as `Nat`). -/
structure Terminal where
  keychain : Nat
  index : Nat
deriving DecidableEq, Repr

/-- `TxParams` (`constructor.rs` line 164). -/
structure TxParams where
  fee : Nat
  lock_time : Option Nat
  seq_no : Nat
  change_shift : Bool
  change_keychain : Nat
deriving DecidableEq, Repr

/-- `Utxo` (`constructor.rs` line 201). -/
structure Utxo where
  outpoint : Outpoint
  value : Nat
  terminal : Terminal
deriving DecidableEq, Repr

/-- `ChangeInfo` (`constructor.rs` line 185). -/
structure ChangeInfo where
  vout : Nat
  terminal : Terminal
deriving DecidableEq, Repr

/-- `PsbtMeta` (`constructor.rs` line 191).  `AddressNetwork` is modelled
as `Nat`. -/
structure PsbtMeta where
  network : Nat
  fee : Nat
  weight : Nat
  size : Nat
  change : Option ChangeInfo
deriving DecidableEq, Repr

/-- Modelled from the spec: one input of the draft transaction, carrying the
previous outpoint and value (`Prevout`), the derivation terminal, the
scriptPubkey, the sequence number and the embedded previous transaction
(`append_input_expect`'s arguments; the `Psbt` container is outside the
provided sources). -/
structure PsbtInput where
  previous_outpoint : Outpoint
  value : Nat
  terminal : Terminal
  spk : Nat
  seq_no : Nat
  prev_tx : Nat
deriving DecidableEq, Repr

/-- Modelled from the spec: one output of the draft transaction (script and
amount); an output's `index()` is its position in the output list. -/
structure PsbtOutput where
  script : Nat
  amount : Nat
deriving DecidableEq, Repr

/-- Modelled from the spec: the `Psbt` draft under construction — inputs,
outputs, the fallback locktime and the copied xpub records. -/
structure Psbt where
  inputs : List PsbtInput
  outputs : List PsbtOutput
  fallback_locktime : Option Nat
  xpubs : List Nat
deriving DecidableEq, Repr

/-- Modelled from the spec: `Psbt::input_sum`, the sum of all appended
inputs' values. -/
def Psbt.input_sum (p : Psbt) : Nat :=
  (p.inputs.map PsbtInput.value).sum

/-- `ConstructionError` (`constructor.rs` line 39).  The `Psbt(PsbtError)`
pass-through variant wraps lower-level container errors that the modelled
container (total list operations) never produces. -/
inductive ConstructionError where
  | UnknownInput (outpoint : Outpoint)
  | NoInputs
  | Overflow (sats : Nat)
  | OutputExceedsInputs (input_value : Nat) (output_value : Nat)
  | NoFundsForFee (input_value : Nat) (output_value : Nat) (fee : Nat)
  | NetworkMismatch (address : Address)
deriving DecidableEq, Repr

/-- The effect log of one `construct_psbt` call: the argument list of every
`next_derivation_index` call and of every `after_construct_psbt` hook call,
in order. -/
structure Effects where
  derivation_calls : List (Nat × Bool)
  hook_calls : List (Psbt × PsbtMeta)
deriving DecidableEq, Repr

/-- The wallet capability interface of the `PsbtConstructor` trait
(`constructor.rs` lines 212-222), as a record of pure functions:
`prev_tx`, `utxo`, `network`, the descriptor's dust limit
(`descriptor().class().dust_limit()`), the descriptor's change script
derivation (used by `append_change_expect`), `next_derivation_index`
(its mutation is tracked in `Effects`), and the descriptor's xpubs. -/
structure Wallet where
  prev_tx : Nat → Option Nat
  utxo : Outpoint → Option (Utxo × Nat)
  network : Nat
  dust_limit : Nat
  next_derivation_index : Nat → Bool → Nat
  change_spk : Terminal → Nat
  xpubs : List Nat

/-- The draft initialised by `construct_psbt` before phase 1: empty inputs
and outputs, the fallback locktime set from the parameters, the
descriptor's xpubs copied in (`constructor.rs` lines 230-238). -/
def init_psbt (w : Wallet) (params : TxParams) : Psbt :=
  { inputs := [], outputs := [], fallback_locktime := params.lock_time,
    xpubs := w.xpubs }

/-- One iteration of the input loop (`constructor.rs` lines 241-257):
resolve the previous transaction and the UTXO, failing with `UnknownInput`
if either lookup fails; skip the coin if an input with the same previous
outpoint is already present; otherwise append the input. -/
def add_input (w : Wallet) (params : TxParams) (psbt : Psbt) (coin : Outpoint) :
    Except ConstructionError Psbt :=
  match w.prev_tx coin.txid with
  | none => .error (.UnknownInput coin)
  | some ptx =>
    match w.utxo coin with
    | none => .error (.UnknownInput coin)
    | some us =>
      if psbt.inputs.any (fun inp => decide (inp.previous_outpoint = us.1.outpoint)) then
        .ok psbt
      else
        .ok { psbt with inputs := psbt.inputs ++
          [{ previous_outpoint := us.1.outpoint, value := us.1.value,
             terminal := us.1.terminal, spk := us.2, seq_no := params.seq_no,
             prev_tx := ptx }] }

/-- Phase 1, the input loop over all requested coins
(`constructor.rs` lines 241-257). -/
def add_inputs (w : Wallet) (params : TxParams) (psbt : Psbt) :
    List Outpoint → Except ConstructionError Psbt
  | [] => .ok psbt
  | coin :: coins =>
    match add_input w params psbt coin with
    | .error e => .error e
    | .ok psbt2 => add_inputs w params psbt2 coins

/-- Phase 2, the output loop (`constructor.rs` lines 266-278): reject a
network mismatch, resolve `Max` to zero (`unwrap_or(Sats::ZERO)`),
accumulate `output_value` with checked addition failing with `Overflow` of
the pre-addition sum, append the output, and record the output index of
every `Max` beneficiary. -/
def add_outputs (w : Wallet) (psbt : Psbt) (output_value : Nat)
    (maxIdx : List Nat) :
    List Beneficiary → Except ConstructionError (Psbt × Nat × List Nat)
  | [] => .ok (psbt, output_value, maxIdx)
  | b :: bs =>
    if b.address.network ≠ w.network then
      .error (.NetworkMismatch b.address)
    else
      let amount := b.amount.unwrap_or 0
      match checkedAdd output_value amount with
      | none => .error (.Overflow output_value)
      | some output_value2 =>
        let idx := psbt.outputs.length
        let psbt2 := { psbt with outputs := psbt.outputs ++
          [{ script := b.script_pubkey, amount := amount }] }
        let maxIdx2 := if b.amount.is_max then maxIdx ++ [idx] else maxIdx
        add_outputs w psbt2 output_value2 maxIdx2 bs

/-- The pending-max distribution (`constructor.rs` lines 291-299): when the
pending-max list is non-empty, overwrite each recorded output's amount with
`remaining / count` and set the remaining value to zero; otherwise leave
both unchanged. -/
def distribute_max (psbt : Psbt) (maxIdx : List Nat) (remaining : Nat) :
    Psbt × Nat :=
  if maxIdx.isEmpty then (psbt, remaining)
  else
    let portion := remaining / maxIdx.length
    let overwrite := fun (io : Nat × PsbtOutput) =>
      if io.1 ∈ maxIdx then { io.2 with amount := portion } else io.2
    ({ psbt with outputs := psbt.outputs.enum.map overwrite }, 0)

/-- Phase 5 and finalisation (`constructor.rs` lines 301-326): when the
remaining value strictly exceeds the dust limit, allocate the next
derivation index on the change keychain, append a change output for exactly
the remaining value at the new terminal and record its `ChangeInfo`;
otherwise no change output.  Assemble the metadata (weight and size are
unset placeholders), invoke the `after_construct_psbt` hook once with the
result, and return. -/
def add_change (w : Wallet) (params : TxParams) (psbt : Psbt) (remaining : Nat) :
    Except ConstructionError (Psbt × PsbtMeta) × Effects :=
  if remaining > w.dust_limit then
    let change_index := w.next_derivation_index params.change_keychain params.change_shift
    let change_terminal : Terminal :=
      { keychain := params.change_keychain, index := change_index }
    let change_vout := psbt.outputs.length
    let psbt2 := { psbt with outputs := psbt.outputs ++
      [{ script := w.change_spk change_terminal, amount := remaining }] }
    let meta : PsbtMeta :=
      { network := w.network, fee := params.fee, weight := 0, size := 0,
        change := some { vout := change_vout, terminal := change_terminal } }
    (.ok (psbt2, meta),
     { derivation_calls := [(params.change_keychain, params.change_shift)],
       hook_calls := [(psbt2, meta)] })
  else
    let meta : PsbtMeta :=
      { network := w.network, fee := params.fee, weight := 0, size := 0,
        change := none }
    (.ok (psbt, meta),
     { derivation_calls := [], hook_calls := [(psbt, meta)] })

/-- Phases 3-5 after the output loop succeeded (`constructor.rs`
lines 279-326): the checked residual computation with its two error cases,
the pending-max distribution, and the change phase. -/
def finish (w : Wallet) (params : TxParams) (input_value : Nat) (psbt : Psbt)
    (output_value : Nat) (maxIdx : List Nat) :
    Except ConstructionError (Psbt × PsbtMeta) × Effects :=
  match checkedSub input_value output_value with
  | none => (.error (.OutputExceedsInputs input_value output_value),
             { derivation_calls := [], hook_calls := [] })
  | some r1 =>
    match checkedSub r1 params.fee with
    | none => (.error (.NoFundsForFee input_value output_value params.fee),
               { derivation_calls := [], hook_calls := [] })
    | some r2 =>
      let step := distribute_max psbt maxIdx r2
      add_change w params step.1 step.2

/-- `PsbtConstructor::construct_psbt` (`constructor.rs` lines 224-327):
initialise the draft, run the input phase (failing with `NoInputs` when no
input was appended), compute `input_value`, run the output phase, and hand
over to the residual/distribution/change phases.  Every error path returns
an empty effect log: the derivation index is never consumed and the hook is
never invoked on failure. -/
def construct_psbt (w : Wallet) (coins : List Outpoint)
    (beneficiaries : List Beneficiary) (params : TxParams) :
    Except ConstructionError (Psbt × PsbtMeta) × Effects :=
  match add_inputs w params (init_psbt w params) coins with
  | .error e => (.error e, { derivation_calls := [], hook_calls := [] })
  | .ok psbt1 =>
    if psbt1.inputs.length = 0 then
      (.error .NoInputs, { derivation_calls := [], hook_calls := [] })
    else
      let input_value := psbt1.input_sum
      match add_outputs w psbt1 0 [] beneficiaries with
      | .error e => (.error e, { derivation_calls := [], hook_calls := [] })
      | .ok r => finish w params input_value r.1 r.2.1 r.2.2

/-- The amount a beneficiary contributes to `output_value`: the fixed
amount, with `Max` resolved to zero (`constructor.rs` line 270). -/
def resolve_amount (p : Payment) : Nat :=
  p.unwrap_or 0

/-- The sum of the resolved amounts of a beneficiary list, i.e. the sum of
its fixed amounts (`Max` counted as zero). -/
def resolvedSum (bens : List Beneficiary) : Nat :=
  (bens.map (fun b => resolve_amount b.amount)).sum

/-- The output indices the output loop records for the `Max` beneficiaries
of a list, when the first appended output receives index `base`. -/
def maxPositions (base : Nat) : List Beneficiary → List Nat
  | [] => []
  | b :: bs => (if b.amount.is_max then [base] else []) ++ maxPositions (base + 1) bs

/-- Whether an outpoint is unresolvable by the wallet: its previous
transaction or its UTXO lookup fails (`constructor.rs` lines 242-245). -/
def lookup_fails (w : Wallet) (coin : Outpoint) : Bool :=
  (w.prev_tx coin.txid).isNone || (w.utxo coin).isNone

/-- The output the loop appends for one beneficiary: its scriptPubkey with
the resolved amount. -/
def resOut (b : Beneficiary) : PsbtOutput :=
  { script := b.script_pubkey, amount := resolve_amount b.amount }

/-- The terminal the change phase allocates: the configured change keychain
together with the index returned by `next_derivation_index` for that
keychain, honoring `change_shift` (`constructor.rs` lines 303-305). -/
def change_terminal_of (w : Wallet) (params : TxParams) : Terminal :=
  { keychain := params.change_keychain,
    index := w.next_derivation_index params.change_keychain params.change_shift }

/-- The metadata assembled at the end of a successful construction: weight
and size are unset placeholders (`constructor.rs` lines 317-323). -/
def meta_with (w : Wallet) (params : TxParams) (c : Option ChangeInfo) : PsbtMeta :=
  { network := w.network, fee := params.fee, weight := 0, size := 0, change := c }

instance {e a : Type} [DecidableEq e] [DecidableEq a] : DecidableEq (Except e a)
  | .error x, .error y =>
    if h : x = y then .isTrue (congrArg Except.error h)
    else .isFalse (by intro hc; injection hc with hc; exact h hc)
  | .error x, .ok y => .isFalse (by intro hc; exact Except.noConfusion hc)
  | .ok x, .error y => .isFalse (by intro hc; exact Except.noConfusion hc)
  | .ok x, .ok y =>
    if h : x = y then .isTrue (congrArg Except.ok h)
    else .isFalse (by intro hc; injection hc with hc; exact h hc)

/-! ### Concrete test fixtures

A small wallet holding two UTXOs (100 000 and 50 000 sats) on transaction 1
resp. 2, with network tag 0, dust limit 546 and a stub derivation allocator,
together with a wallet that resolves nothing.  These instantiate the
theorems below on explicit values. -/

def wT : Wallet := {
  prev_tx := fun t => if t = 1 then some 10 else if t = 2 then some 20 else none
  utxo := fun c =>
    if c = ⟨1, 0⟩ then some (⟨⟨1, 0⟩, 100000, ⟨0, 5⟩⟩, 77)
    else if c = ⟨2, 0⟩ then some (⟨⟨2, 0⟩, 50000, ⟨0, 6⟩⟩, 78)
    else none
  network := 0
  dust_limit := 546
  next_derivation_index := fun _ _ => 7
  change_spk := fun t => 1000 * t.keychain + t.index
  xpubs := [] }

def wFail : Wallet := {
  prev_tx := fun _ => none
  utxo := fun _ => none
  network := 0
  dust_limit := 546
  next_derivation_index := fun _ _ => 0
  change_spk := fun _ => 0
  xpubs := [] }

def pT : TxParams :=
  { fee := 1000, lock_time := none, seq_no := 0, change_shift := true,
    change_keychain := 1 }

def addrOk : Address := ⟨0, 201⟩
def addrBad : Address := ⟨9, 202⟩
def coin1 : Outpoint := ⟨1, 0⟩
def coin2 : Outpoint := ⟨2, 0⟩
def coin0 : Outpoint := ⟨0, 0⟩

/-- The draft reached after the input phase on `wT` with coin 1. -/
def psbtW : Psbt :=
  { inputs := [⟨⟨1, 0⟩, 100000, ⟨0, 5⟩, 77, 0, 10⟩], outputs := [],
    fallback_locktime := none, xpubs := [] }

/-- The draft produced by `wT`, coin 1, no beneficiaries: the whole residual
of 99 000 sats becomes the change output at terminal keychain 1, index 7. -/
def psbtChg : Psbt :=
  { inputs := [⟨⟨1, 0⟩, 100000, ⟨0, 5⟩, 77, 0, 10⟩], outputs := [⟨1007, 99000⟩],
    fallback_locktime := none, xpubs := [] }

/-- The metadata accompanying `psbtChg`. -/
def metaChg : PsbtMeta :=
  { network := 0, fee := 1000, weight := 0, size := 0,
    change := some ⟨0, ⟨1, 7⟩⟩ }

/-! ### Structural lemmas about the input phase -/

/-- A successful `add_input` leaves outputs, locktime and xpubs unchanged
and only ever appends to the input list. -/
lemma add_input_ok_parts {w : Wallet} {params : TxParams} {p q : Psbt}
    {c : Outpoint} (h : add_input w params p c = .ok q) :
    q.outputs = p.outputs ∧ q.fallback_locktime = p.fallback_locktime ∧
    q.xpubs = p.xpubs ∧ ∃ l, q.inputs = p.inputs ++ l := by
  unfold add_input at h
  split at h
  · cases h
  · split at h
    · cases h
    · split at h
      · cases h
        exact ⟨rfl, rfl, rfl, [], by simp⟩
      · cases h
        exact ⟨rfl, rfl, rfl, _, rfl⟩

/-- A successful input phase leaves outputs, locktime and xpubs unchanged
and only ever appends to the input list. -/
lemma add_inputs_ok_parts {w : Wallet} {params : TxParams} :
    ∀ {coins : List Outpoint} {p q : Psbt},
    add_inputs w params p coins = .ok q →
    q.outputs = p.outputs ∧ q.fallback_locktime = p.fallback_locktime ∧
    q.xpubs = p.xpubs ∧ ∃ l, q.inputs = p.inputs ++ l := by
  intro coins
  induction coins with
  | nil =>
    intro p q h
    cases h
    exact ⟨rfl, rfl, rfl, [], by simp⟩
  | cons c cs ih =>
    intro p q h
    unfold add_inputs at h
    cases hstep : add_input w params p c with
    | error e => rw [hstep] at h; cases h
    | ok p2 =>
      rw [hstep] at h
      obtain ⟨ho, hl, hx, l1, hi⟩ := add_input_ok_parts hstep
      obtain ⟨ho2, hl2, hx2, l2, hi2⟩ := ih h
      exact ⟨ho2.trans ho, hl2.trans hl, hx2.trans hx, l1 ++ l2,
        by rw [hi2, hi, List.append_assoc]⟩

/-- A successful input phase preserves the no-duplicate-prevouts property:
the dedup guard skips a coin whose previous outpoint was already appended. -/
lemma add_inputs_nodup {w : Wallet} {params : TxParams} :
    ∀ {coins : List Outpoint} {p q : Psbt},
    add_inputs w params p coins = .ok q →
    (p.inputs.map PsbtInput.previous_outpoint).Nodup →
    (q.inputs.map PsbtInput.previous_outpoint).Nodup := by
  intro coins
  induction coins with
  | nil =>
    intro p q h hnd
    cases h
    exact hnd
  | cons c cs ih =>
    intro p q h hnd
    unfold add_inputs at h
    cases hstep : add_input w params p c with
    | error e => rw [hstep] at h; cases h
    | ok p2 =>
      rw [hstep] at h
      refine ih h ?_
      unfold add_input at hstep
      split at hstep
      · cases hstep
      · split at hstep
        · cases hstep
        · split at hstep
          · cases hstep
            exact hnd
          · rename_i hany
            cases hstep
            rw [List.map_append, List.nodup_append]
            refine ⟨hnd, by simp, ?_⟩
            intro a ha hb
            simp only [List.map_cons, List.map_nil, List.mem_singleton] at hb
            subst hb
            apply hany
            rw [List.any_eq_true]
            obtain ⟨inp, hinp, hpo⟩ := List.mem_map.mp ha
            exact ⟨inp, hinp, by simp [hpo]⟩

/-- After a successful input phase, every requested coin that the wallet
resolves has its UTXO's outpoint among the appended previous outpoints. -/
lemma add_inputs_mem {w : Wallet} {params : TxParams} :
    ∀ {coins : List Outpoint} {p q : Psbt} {c : Outpoint} {t : Nat}
    {u : Utxo} {s : Nat},
    add_inputs w params p coins = .ok q →
    c ∈ coins → w.prev_tx c.txid = some t → w.utxo c = some (u, s) →
    u.outpoint ∈ q.inputs.map PsbtInput.previous_outpoint := by
  intro coins
  induction coins with
  | nil =>
    intro p q c t u s h hc
    cases hc
  | cons d ds ih =>
    intro p q c t u s h hc hp hu
    unfold add_inputs at h
    cases hstep : add_input w params p d with
    | error e => rw [hstep] at h; cases h
    | ok p2 =>
      rw [hstep] at h
      rcases List.mem_cons.mp hc with hcd | hcs
      · subst hcd
        have hmem : u.outpoint ∈ p2.inputs.map PsbtInput.previous_outpoint := by
          unfold add_input at hstep
          split at hstep
          · rename_i hnone
            rw [hp] at hnone
            cases hnone
          · split at hstep
            · rename_i hnone
              rw [hu] at hnone
              cases hnone
            · rename_i us hus
              rw [hu] at hus
              injection hus with hus
              subst hus
              split at hstep
              · rename_i hany
                cases hstep
                rw [List.any_eq_true] at hany
                obtain ⟨inp, hinp, heq⟩ := hany
                rw [decide_eq_true_iff] at heq
                exact List.mem_map.mpr ⟨inp, hinp, heq⟩
              · cases hstep
                simp
        obtain ⟨-, -, -, l, hi⟩ := add_inputs_ok_parts h
        rw [hi, List.map_append]
        exact List.mem_append_left _ hmem
      · exact ih h hcs hp hu

/-- When some requested coin is unresolvable, the input phase fails with
`UnknownInput` naming the first such coin in processing order. -/
lemma add_inputs_find_fail {w : Wallet} {params : TxParams} :
    ∀ {coins : List Outpoint} {p : Psbt} {c : Outpoint},
    coins.find? (lookup_fails w) = some c →
    add_inputs w params p coins = .error (.UnknownInput c) := by
  intro coins
  induction coins with
  | nil => intro p c h; cases h
  | cons d ds ih =>
    intro p c h
    by_cases hd : lookup_fails w d = true
    · rw [List.find?_cons_of_pos _ hd] at h
      cases h
      unfold lookup_fails at hd
      rw [Bool.or_eq_true, Option.isNone_iff_eq_none, Option.isNone_iff_eq_none] at hd
      unfold add_inputs add_input
      rcases hd with hp | hu
      · rw [hp]
      · rcases hpv : w.prev_tx d.txid with _ | t
        · rfl
        · rw [hu]
    · rw [List.find?_cons_of_neg _ hd] at h
      unfold lookup_fails at hd
      simp only [Bool.or_eq_true, Option.isNone_iff_eq_none, not_or] at hd
      obtain ⟨hp, hu⟩ := hd
      unfold add_inputs
      split
      · rename_i e heq
        exfalso
        unfold add_input at heq
        split at heq
        · rename_i hnone
          exact hp hnone
        · split at heq
          · rename_i hnone
            exact hu hnone
          · split at heq <;> cases heq
      · rename_i p2 heq
        exact ih h

/-! ### Structural lemmas about the output phase -/

lemma resolvedSum_cons (b : Beneficiary) (bs : List Beneficiary) :
    resolvedSum (b :: bs) = resolve_amount b.amount + resolvedSum bs := by
  simp [resolvedSum]

/-- One unfolding step of the output loop. -/
lemma add_outputs_cons (w : Wallet) (p : Psbt) (acc : Nat) (mi : List Nat)
    (b : Beneficiary) (bs : List Beneficiary) :
    add_outputs w p acc mi (b :: bs) =
      if b.address.network ≠ w.network then
        .error (.NetworkMismatch b.address)
      else
        match checkedAdd acc (b.amount.unwrap_or 0) with
        | none => .error (.Overflow acc)
        | some acc2 =>
          add_outputs w
            { p with outputs := p.outputs ++
              [{ script := b.script_pubkey, amount := b.amount.unwrap_or 0 }] }
            acc2
            (if b.amount.is_max then mi ++ [p.outputs.length] else mi) bs := rfl

/-- Characterisation of a successful output phase: the outputs appended are
the beneficiaries' resolved outputs in order, the accumulated value is the
sum of resolved amounts, the recorded max list is the list of positions of
the `Max` beneficiaries, and every beneficiary passed the network check. -/
lemma add_outputs_ok_spec {w : Wallet} :
    ∀ {bens : List Beneficiary} {p : Psbt} {acc : Nat} {mi : List Nat}
      {q : Psbt} {a : Nat} {m : List Nat},
    add_outputs w p acc mi bens = .ok (q, a, m) →
    q = { p with outputs := p.outputs ++ bens.map resOut } ∧
    a = acc + resolvedSum bens ∧
    m = mi ++ maxPositions p.outputs.length bens ∧
    (∀ b ∈ bens, b.address.network = w.network) := by
  intro bens
  induction bens with
  | nil =>
    intro p acc mi q a m h
    cases h
    refine ⟨by simp, by simp [resolvedSum], by simp [maxPositions], by simp⟩
  | cons b bs ih =>
    intro p acc mi q a m h
    rw [add_outputs_cons] at h
    split at h
    · cases h
    · rename_i hnet
      rw [not_not] at hnet
      split at h
      · cases h
      · rename_i acc2 hacc
        unfold checkedAdd at hacc
        split at hacc
        · rename_i hle
          injection hacc with hacc
          obtain ⟨hq, ha, hm, hnets⟩ := ih h
          refine ⟨?_, ?_, ?_, ?_⟩
          · rw [hq]
            simp [resOut, resolve_amount, List.append_assoc]
          · rw [ha, ← hacc, resolvedSum_cons]
            simp [resolve_amount]
            omega
          · rw [hm]
            simp only [maxPositions]
            cases hmax : b.amount.is_max <;>
              simp [hmax, List.length_append, List.append_assoc, Nat.add_comm]
          · intro x hx
            rcases List.mem_cons.mp hx with hxb | hxs
            · rw [hxb]; exact hnet
            · exact hnets x hxs
        · cases hacc

/-- Constructive form: when every beneficiary passes the network check and
the total resolved sum stays within the ceiling, the output phase succeeds
with the characterised result. -/
lemma add_outputs_eq_ok {w : Wallet} :
    ∀ {bens : List Beneficiary} {p : Psbt} {acc : Nat} {mi : List Nat},
    (∀ b ∈ bens, b.address.network = w.network) →
    acc + resolvedSum bens ≤ satCeiling →
    add_outputs w p acc mi bens =
      .ok ({ p with outputs := p.outputs ++ bens.map resOut },
           acc + resolvedSum bens,
           mi ++ maxPositions p.outputs.length bens) := by
  intro bens
  induction bens with
  | nil =>
    intro p acc mi hnets hle
    simp [add_outputs, resolvedSum, maxPositions]
  | cons b bs ih =>
    intro p acc mi hnets hle
    rw [add_outputs_cons]
    have hnet : b.address.network = w.network := hnets b (List.mem_cons_self b bs)
    rw [if_neg (by simp [hnet])]
    have hsum : acc + resolve_amount b.amount ≤ satCeiling := by
      rw [resolvedSum_cons] at hle
      omega
    have hacc : checkedAdd acc (b.amount.unwrap_or 0) =
        some (acc + resolve_amount b.amount) := by
      unfold checkedAdd
      rw [if_pos (by simpa [resolve_amount] using hsum)]
      simp [resolve_amount]
    rw [hacc]
    have hih := @ih ({ p with outputs := p.outputs ++
        [{ script := b.script_pubkey, amount := b.amount.unwrap_or 0 }] })
      (acc + resolve_amount b.amount)
      (if b.amount.is_max then mi ++ [p.outputs.length] else mi)
      (fun x hx => hnets x (List.mem_cons_of_mem b hx))
      (by rw [resolvedSum_cons] at hle; omega)
    refine hih.trans (congrArg Except.ok ?_)
    refine congrArg₂ Prod.mk ?_ (congrArg₂ Prod.mk ?_ ?_)
    · simp [resOut, resolve_amount, List.append_assoc]
    · rw [resolvedSum_cons]; omega
    · simp only [maxPositions]
      cases hmax : b.amount.is_max <;>
        simp [hmax, List.length_append, List.append_assoc]

/-- The output loop over a concatenation runs the first part, then
continues with the second from the reached state. -/
lemma add_outputs_append {w : Wallet} :
    ∀ (xs ys : List Beneficiary) (p : Psbt) (acc : Nat) (mi : List Nat),
    add_outputs w p acc mi (xs ++ ys) =
      match add_outputs w p acc mi xs with
      | .error e => .error e
      | .ok r => add_outputs w r.1 r.2.1 r.2.2 ys := by
  intro xs
  induction xs with
  | nil => intro ys p acc mi; rfl
  | cons x xs ih =>
    intro ys p acc mi
    rw [List.cons_append, add_outputs_cons, add_outputs_cons]
    by_cases hnet : x.address.network ≠ w.network
    · rw [if_pos hnet, if_pos hnet]
    · rw [if_neg hnet, if_neg hnet]
      cases checkedAdd acc (x.amount.unwrap_or 0) with
      | none => rfl
      | some acc2 => exact ih ys _ _ _

/-! ### Lemmas about the recorded max positions -/

lemma maxPositions_nil_of_nomax :
    ∀ {bens : List Beneficiary} (base : Nat),
    (∀ b ∈ bens, b.amount.is_max = false) → maxPositions base bens = [] := by
  intro bens
  induction bens with
  | nil => intro base h; rfl
  | cons b bs ih =>
    intro base h
    unfold maxPositions
    rw [h b (List.mem_cons_self b bs)]
    simpa using ih (base + 1) (fun x hx => h x (List.mem_cons_of_mem b hx))

lemma length_maxPositions :
    ∀ {bens : List Beneficiary} (base : Nat),
    (maxPositions base bens).length = bens.countP (fun b => b.amount.is_max) := by
  intro bens
  induction bens with
  | nil => intro base; rfl
  | cons b bs ih =>
    intro base
    unfold maxPositions
    rw [List.length_append, ih (base + 1), List.countP_cons]
    cases hb : b.amount.is_max <;> simp [hb, Nat.add_comm]

lemma mem_maxPositions :
    ∀ {bens : List Beneficiary} {base i : Nat},
    i ∈ maxPositions base bens ↔
      ∃ j, ∃ hj : j < bens.length,
        i = base + j ∧ (bens.get ⟨j, hj⟩).amount.is_max = true := by
  intro bens
  induction bens with
  | nil =>
    intro base i
    simp [maxPositions]
  | cons b bs ih =>
    intro base i
    unfold maxPositions
    rw [List.mem_append]
    constructor
    · intro h
      rcases h with h | h
      · by_cases hb : b.amount.is_max = true
        · rw [if_pos hb] at h
          rw [List.mem_singleton] at h
          subst h
          exact ⟨0, by simp, by omega, by simpa using hb⟩
        · rw [if_neg hb] at h
          cases h
      · obtain ⟨j, hj, hi, hmax⟩ := ih.mp h
        refine ⟨j + 1, by simpa using Nat.succ_lt_succ hj, by omega, ?_⟩
        simpa using hmax
    · rintro ⟨j, hj, hi, hmax⟩
      cases j with
      | zero =>
        left
        rw [if_pos (by simpa using hmax)]
        rw [List.mem_singleton]
        omega
      | succ j =>
        right
        refine ih.mpr ⟨j, by simpa using Nat.lt_of_succ_lt_succ hj, by omega, ?_⟩
        simpa using hmax

lemma mem_maxPositions_zero {bens : List Beneficiary} {j : Nat}
    (hj : j < bens.length) :
    j ∈ maxPositions 0 bens ↔ (bens.get ⟨j, hj⟩).amount.is_max = true := by
  rw [mem_maxPositions]
  constructor
  · rintro ⟨j2, hj2, hji, hmax⟩
    have hjj : j2 = j := by omega
    subst hjj
    exact hmax
  · intro h
    exact ⟨j, hj, by omega, h⟩

/-- The effect of the pending-max overwrite loop on the output list built
from the beneficiaries: a `Max` beneficiary's output amount becomes the
portion, every other output is untouched. -/
lemma overwritten_outputs (bens : List Beneficiary) (portion : Nat) :
    ((bens.map resOut).enum.map (fun io =>
        if io.1 ∈ maxPositions 0 bens then { io.2 with amount := portion } else io.2)) =
    bens.map (fun b => if b.amount.is_max = true
        then { script := b.script_pubkey, amount := portion } else resOut b) := by
  apply List.ext_getElem
  · simp
  · intro j h1 h2
    have hj : j < bens.length := by simpa using h2
    rw [List.getElem_map, List.getElem_enum, List.getElem_map, List.getElem_map]
    have hget : bens[j] = bens.get ⟨j, hj⟩ := rfl
    by_cases hmax : (bens.get ⟨j, hj⟩).amount.is_max = true
    · rw [if_pos ((mem_maxPositions_zero hj).mpr hmax)]
      rw [hget, if_pos hmax]
      simp [resOut]
    · rw [if_neg (fun hmem => hmax ((mem_maxPositions_zero hj).mp hmem))]
      rw [hget, if_neg hmax]

lemma is_max_iff {p : Payment} : p.is_max = true ↔ p = Payment.Max := by
  simp [Payment.is_max]

lemma resolve_amount_of_max {p : Payment} (h : p.is_max = true) :
    resolve_amount p = 0 := by
  rw [is_max_iff] at h
  subst h
  rfl

/-- The total amount carried by the outputs after the pending-max
overwrite: the fixed amounts plus one portion per `Max` beneficiary. -/
lemma sum_overwritten (bens : List Beneficiary) (portion : Nat) :
    ((bens.map (fun b => if b.amount.is_max = true
        then { script := b.script_pubkey, amount := portion } else resOut b)).map
      PsbtOutput.amount).sum =
    resolvedSum bens + bens.countP (fun b => b.amount.is_max) * portion := by
  induction bens with
  | nil => simp [resolvedSum]
  | cons b bs ih =>
    rw [List.map_cons, List.map_cons, List.sum_cons, ih, resolvedSum_cons,
      List.countP_cons]
    cases hb : b.amount.is_max with
    | true =>
      rw [resolve_amount_of_max hb]
      simp only [if_pos rfl, if_true]
      ring
    | false =>
      have hif : (false = true) = False := by simp
      simp only [hif, if_false]
      simp only [resOut]
      ring

/-! ### Plumbing lemmas for the residual, distribution and change phases -/

lemma checkedSub_of_le {a b : Nat} (h : b ≤ a) : checkedSub a b = some (a - b) := by
  simp [checkedSub, h]

lemma checkedSub_of_lt {a b : Nat} (h : a < b) : checkedSub a b = none := by
  unfold checkedSub
  rw [if_neg (by omega)]

lemma distribute_max_nil (p : Psbt) (r : Nat) : distribute_max p [] r = (p, r) := rfl

lemma distribute_max_inputs (p : Psbt) (mi : List Nat) (r : Nat) :
    (distribute_max p mi r).1.inputs = p.inputs := by
  unfold distribute_max
  split <;> rfl

lemma add_change_ok_inputs {w : Wallet} {params : TxParams} {p : Psbt}
    {r : Nat} {q : Psbt} {m : PsbtMeta} {eff : Effects}
    (h : add_change w params p r = (.ok (q, m), eff)) : q.inputs = p.inputs := by
  unfold add_change at h
  split at h
  · injection h with h1 h2
    injection h1 with h1
    injection h1 with hq hm
    rw [← hq]
  · injection h with h1 h2
    injection h1 with h1
    injection h1 with hq hm
    rw [← hq]

/-- The residual computation of `finish`: the two underflow errors in their
order, and the successful reduction to the distribution/change phases. -/
lemma finish_spec (w : Wallet) (params : TxParams) (iv : Nat) (p : Psbt)
    (ov : Nat) (mi : List Nat) :
    (iv < ov → finish w params iv p ov mi =
      (.error (.OutputExceedsInputs iv ov), ⟨[], []⟩)) ∧
    (ov ≤ iv → iv < ov + params.fee → finish w params iv p ov mi =
      (.error (.NoFundsForFee iv ov params.fee), ⟨[], []⟩)) ∧
    (ov ≤ iv → ov + params.fee ≤ iv → finish w params iv p ov mi =
      add_change w params (distribute_max p mi (iv - ov - params.fee)).1
        (distribute_max p mi (iv - ov - params.fee)).2) := by
  refine ⟨?_, ?_, ?_⟩
  · intro hlt
    unfold finish
    rw [checkedSub_of_lt hlt]
  · intro hov hfee
    unfold finish
    split
    · rename_i heq
      rw [checkedSub_of_le hov] at heq
      cases heq
    · rename_i r1 heq
      rw [checkedSub_of_le hov] at heq
      injection heq with heq
      subst heq
      split
      · rfl
      · rename_i r2 heq2
        rw [checkedSub_of_lt (by omega)] at heq2
        cases heq2
  · intro hov hfee
    unfold finish
    split
    · rename_i heq
      rw [checkedSub_of_le hov] at heq
      cases heq
    · rename_i r1 heq
      rw [checkedSub_of_le hov] at heq
      injection heq with heq
      subst heq
      split
      · rename_i heq2
        rw [checkedSub_of_le (by omega)] at heq2
        cases heq2
      · rename_i r2 heq2
        rw [checkedSub_of_le (by omega)] at heq2
        injection heq2 with heq2
        subst heq2
        rfl

/-- Reduction of `construct_psbt` to `finish` once the input and output
phases are known to have succeeded with a non-empty input list. -/
lemma construct_psbt_eq_finish {w : Wallet} {coins : List Outpoint}
    {bens : List Beneficiary} {params : TxParams} {psbt1 p2 : Psbt}
    {ov : Nat} {mi : List Nat}
    (h1 : add_inputs w params (init_psbt w params) coins = .ok psbt1)
    (h2 : psbt1.inputs.length ≠ 0)
    (h4 : add_outputs w psbt1 0 [] bens = .ok (p2, ov, mi)) :
    construct_psbt w coins bens params = finish w params psbt1.input_sum p2 ov mi := by
  unfold construct_psbt
  split
  · rename_i e heq
    rw [h1] at heq
    cases heq
  · rename_i q heq
    rw [h1] at heq
    injection heq with heq
    subst heq
    rw [if_neg h2]
    dsimp only
    split
    · rename_i e heq2
      rw [h4] at heq2
      cases heq2
    · rename_i r heq2
      rw [h4] at heq2
      injection heq2 with heq2
      subst heq2
      rfl

lemma add_change_gt {w : Wallet} {params : TxParams} {p : Psbt} {r : Nat}
    (h : w.dust_limit < r) :
    add_change w params p r =
      (.ok ({ p with outputs := p.outputs ++
            [⟨w.change_spk (change_terminal_of w params), r⟩] },
          meta_with w params (some ⟨p.outputs.length, change_terminal_of w params⟩)),
       ⟨[(params.change_keychain, params.change_shift)],
        [({ p with outputs := p.outputs ++
            [⟨w.change_spk (change_terminal_of w params), r⟩] },
          meta_with w params (some ⟨p.outputs.length, change_terminal_of w params⟩))]⟩) := by
  unfold add_change
  rw [if_pos h]
  rfl

lemma add_change_le {w : Wallet} {params : TxParams} {p : Psbt} {r : Nat}
    (h : r ≤ w.dust_limit) :
    add_change w params p r =
      (.ok (p, meta_with w params none),
       { derivation_calls := [], hook_calls := [(p, meta_with w params none)] }) := by
  unfold add_change
  rw [if_neg (by omega)]
  rfl

/-- When the output phase fails, the whole construction fails with the same
error and no effects. -/
lemma construct_psbt_output_error {w : Wallet} {coins : List Outpoint}
    {bens : List Beneficiary} {params : TxParams} {psbt1 : Psbt}
    {e : ConstructionError}
    (h1 : add_inputs w params (init_psbt w params) coins = .ok psbt1)
    (h2 : psbt1.inputs.length ≠ 0)
    (hout : add_outputs w psbt1 0 [] bens = .error e) :
    construct_psbt w coins bens params = (.error e, ⟨[], []⟩) := by
  unfold construct_psbt
  split
  · rename_i e2 heq
    rw [h1] at heq
    cases heq
  · rename_i q heq
    rw [h1] at heq
    injection heq with heq
    subst heq
    rw [if_neg h2]
    dsimp only
    split
    · rename_i e2 heq2
      rw [hout] at heq2
      injection heq2 with heq2
      rw [← heq2]
    · rename_i r heq2
      rw [hout] at heq2
      cases heq2

/-- When the input phase produces the `UnknownInput` error, the whole
construction fails with it and no effects. -/
lemma construct_psbt_find_fail {w : Wallet} {coins : List Outpoint}
    {bens : List Beneficiary} {params : TxParams} {c : Outpoint}
    (h : coins.find? (lookup_fails w) = some c) :
    construct_psbt w coins bens params = (.error (.UnknownInput c), ⟨[], []⟩) := by
  unfold construct_psbt
  split
  · rename_i e heq
    rw [add_inputs_find_fail h] at heq
    injection heq with heq
    rw [← heq]
  · rename_i q heq
    rw [add_inputs_find_fail h] at heq
    cases heq

/-- Inversion of a successful construction: both phases succeeded, the
input list is non-empty, and the result came from `finish`. -/
lemma construct_ok_full {w : Wallet} {coins : List Outpoint}
    {bens : List Beneficiary} {params : TxParams} {psbt : Psbt}
    {meta : PsbtMeta} {eff : Effects}
    (h : construct_psbt w coins bens params = (.ok (psbt, meta), eff)) :
    ∃ psbt1 p2 ov mi,
      add_inputs w params (init_psbt w params) coins = .ok psbt1 ∧
      psbt1.inputs.length ≠ 0 ∧
      add_outputs w psbt1 0 [] bens = .ok (p2, ov, mi) ∧
      finish w params psbt1.input_sum p2 ov mi = (.ok (psbt, meta), eff) := by
  unfold construct_psbt at h
  split at h
  · injection h with h1 h2
    exact Except.noConfusion h1
  · rename_i psbt1 heq
    by_cases hlen : psbt1.inputs.length = 0
    · rw [if_pos hlen] at h
      injection h with h1 h2
      exact Except.noConfusion h1
    · rw [if_neg hlen] at h
      dsimp only at h
      split at h
      · injection h with h1 h2
        exact Except.noConfusion h1
      · rename_i r heq2
        exact ⟨psbt1, r.1, r.2.1, r.2.2, heq, hlen, heq2, h⟩

lemma finish_ok_inputs {w : Wallet} {params : TxParams} {iv : Nat} {p : Psbt}
    {ov : Nat} {mi : List Nat} {q : Psbt} {m : PsbtMeta} {eff : Effects}
    (h : finish w params iv p ov mi = (.ok (q, m), eff)) : q.inputs = p.inputs := by
  unfold finish at h
  split at h
  · injection h with h1 h2
    exact Except.noConfusion h1
  · split at h
    · injection h with h1 h2
      exact Except.noConfusion h1
    · dsimp only at h
      exact (add_change_ok_inputs h).trans (distribute_max_inputs _ _ _)

/-- A successful `finish` means neither residual subtraction underflowed. -/
lemma finish_ok_inv {w : Wallet} {params : TxParams} {iv : Nat} {p : Psbt}
    {ov : Nat} {mi : List Nat} {q : Psbt} {m : PsbtMeta} {eff : Effects}
    (h : finish w params iv p ov mi = (.ok (q, m), eff)) :
    ov ≤ iv ∧ ov + params.fee ≤ iv := by
  unfold finish at h
  split at h
  · injection h with h1 h2
    exact Except.noConfusion h1
  · rename_i r1 heq
    unfold checkedSub at heq
    split at heq
    · rename_i hov
      injection heq with heq
      subst heq
      split at h
      · injection h with h1 h2
        exact Except.noConfusion h1
      · rename_i r2 heq2
        unfold checkedSub at heq2
        split at heq2
        · rename_i hfee
          exact ⟨hov, by omega⟩
        · cases heq2
    · cases heq

lemma construct_ok_inputs {w : Wallet} {coins : List Outpoint}
    {bens : List Beneficiary} {params : TxParams} {psbt : Psbt}
    {meta : PsbtMeta} {eff : Effects}
    (h : construct_psbt w coins bens params = (.ok (psbt, meta), eff)) :
    ∃ psbt1, add_inputs w params (init_psbt w params) coins = .ok psbt1 ∧
      psbt1.inputs.length ≠ 0 ∧ psbt.inputs = psbt1.inputs := by
  obtain ⟨psbt1, p2, ov, mi, hI, hlen, hO, hF⟩ := construct_ok_full h
  obtain ⟨hq, -, -, -⟩ := add_outputs_ok_spec hO
  refine ⟨psbt1, hI, hlen, ?_⟩
  rw [finish_ok_inputs hF, hq]

/-- The change phase always succeeds and invokes the hook exactly once with
the pair it returns. -/
lemma add_change_effects (w : Wallet) (params : TxParams) (p : Psbt) (r : Nat) :
    ∃ v eff, add_change w params p r = (.ok v, eff) ∧ eff.hook_calls = [v] := by
  unfold add_change
  split
  · exact ⟨_, _, rfl, rfl⟩
  · exact ⟨_, _, rfl, rfl⟩

lemma finish_effects (w : Wallet) (params : TxParams) (iv : Nat) (p : Psbt)
    (ov : Nat) (mi : List Nat) :
    (∃ e, finish w params iv p ov mi = (.error e, ⟨[], []⟩)) ∨
    (∃ v eff, finish w params iv p ov mi = (.ok v, eff) ∧ eff.hook_calls = [v]) := by
  unfold finish
  split
  · exact .inl ⟨_, rfl⟩
  · split
    · exact .inl ⟨_, rfl⟩
    · dsimp only
      exact .inr (add_change_effects w params _ _)

/-- Every run of `construct_psbt` either fails with an empty effect log or
succeeds having invoked the hook exactly once with the returned pair. -/
lemma construct_effects (w : Wallet) (coins : List Outpoint)
    (bens : List Beneficiary) (params : TxParams) :
    (∃ e, construct_psbt w coins bens params = (.error e, ⟨[], []⟩)) ∨
    (∃ v eff, construct_psbt w coins bens params = (.ok v, eff) ∧
      eff.hook_calls = [v]) := by
  unfold construct_psbt
  split
  · exact .inl ⟨_, rfl⟩
  · split
    · exact .inl ⟨_, rfl⟩
    · dsimp only
      split
      · exact .inl ⟨_, rfl⟩
      · exact finish_effects w params _ _ _ _

/-! ### The claims -/

/-- C2: when the checked sum of beneficiary amounts (`Max` as zero)
succeeds, an `output_value` exceeding `input_value` yields
`OutputExceedsInputs` with both values; an `output_value` within
`input_value` whose addition of the fee exceeds `input_value` yields
`NoFundsForFee` with all three values; the two errors arise exactly in
those disjoint cases. -/
theorem claim_c2 {w : Wallet} {coins : List Outpoint} {bens : List Beneficiary}
    {params : TxParams} {psbt1 p2 : Psbt} {ov : Nat} {mi : List Nat}
    (h1 : add_inputs w params (init_psbt w params) coins = .ok psbt1)
    (h2 : psbt1.inputs.length ≠ 0)
    (h4 : add_outputs w psbt1 0 [] bens = .ok (p2, ov, mi)) :
    (psbt1.input_sum < ov →
      construct_psbt w coins bens params =
        (.error (.OutputExceedsInputs psbt1.input_sum ov), ⟨[], []⟩)) ∧
    (ov ≤ psbt1.input_sum → psbt1.input_sum < ov + params.fee →
      construct_psbt w coins bens params =
        (.error (.NoFundsForFee psbt1.input_sum ov params.fee), ⟨[], []⟩)) := by
  have hc := construct_psbt_eq_finish h1 h2 h4
  have hs := finish_spec w params psbt1.input_sum p2 ov mi
  exact ⟨fun hlt => hc.trans (hs.1 hlt),
    fun hov hfee => hc.trans (hs.2.1 hov hfee)⟩

theorem claim_c2_witness :
    construct_psbt wT [coin1] [⟨addrOk, .Fixed 200000⟩] pT =
      (.error (.OutputExceedsInputs 100000 200000), ⟨[], []⟩) ∧
    construct_psbt wT [coin1] [⟨addrOk, .Fixed 99500⟩] pT =
      (.error (.NoFundsForFee 100000 99500 1000), ⟨[], []⟩) := by
  constructor
  · exact (@claim_c2 wT [coin1] [⟨addrOk, .Fixed 200000⟩] pT psbtW
      { psbtW with outputs := [⟨201, 200000⟩] } 200000 []
      rfl (by decide) rfl).1 (by decide)
  · exact (@claim_c2 wT [coin1] [⟨addrOk, .Fixed 99500⟩] pT psbtW
      { psbtW with outputs := [⟨201, 99500⟩] } 99500 []
      rfl (by decide) rfl).2 (by decide) (by decide)

/-- C4: a failed construction performs no wallet-side effect — no
`next_derivation_index` call and no hook call; a successful construction
invokes the hook exactly once, with the pair it returns. -/
theorem claim_c4 (w : Wallet) (coins : List Outpoint) (bens : List Beneficiary)
    (params : TxParams) :
    (∀ e eff, construct_psbt w coins bens params = (.error e, eff) →
      eff.derivation_calls = [] ∧ eff.hook_calls = []) ∧
    (∀ v eff, construct_psbt w coins bens params = (.ok v, eff) →
      eff.hook_calls = [v]) := by
  rcases construct_effects w coins bens params with ⟨e, he⟩ | ⟨v, eff, hv, hh⟩
  · refine ⟨?_, ?_⟩
    · intro e2 eff2 h2
      rw [he] at h2
      injection h2 with h1 h2
      rw [← h2]
      exact ⟨rfl, rfl⟩
    · intro v2 eff2 h2
      rw [he] at h2
      injection h2 with h1 h2
      exact Except.noConfusion h1
  · refine ⟨?_, ?_⟩
    · intro e2 eff2 h2
      rw [hv] at h2
      injection h2 with h1 h2
      exact Except.noConfusion h1
    · intro v2 eff2 h2
      rw [hv] at h2
      injection h2 with h1 h2
      injection h1 with h1
      rw [← h2, hh, h1]

theorem claim_c4_witness :
    construct_psbt wT [coin1] [] pT =
      (.ok (psbtChg, metaChg), ⟨[(1, true)], [(psbtChg, metaChg)]⟩) ∧
    (⟨[(1, true)], [(psbtChg, metaChg)]⟩ : Effects).hook_calls =
      [(psbtChg, metaChg)] := by
  refine ⟨rfl, ?_⟩
  exact (claim_c4 wT [coin1] [] pT).2 (psbtChg, metaChg)
    ⟨[(1, true)], [(psbtChg, metaChg)]⟩ rfl

/-- C5 (counterexample): a non-empty coin list whose only outpoint fails
both lookups yields `UnknownInput` for that outpoint, not `NoInputs` as
the claim states. -/
theorem claim_c5_counterexample :
    lookup_fails wFail coin0 = true ∧
    construct_psbt wFail [coin0] [] pT =
      (.error (.UnknownInput coin0), ⟨[], []⟩) ∧
    (construct_psbt wFail [coin0] [] pT).1 ≠ .error .NoInputs :=
  ⟨rfl, rfl, by decide⟩

/-- C5 (amended): an empty coin list yields `NoInputs`; a non-empty coin
list where every outpoint's lookup fails yields `UnknownInput` carrying
the first outpoint. -/
theorem claim_c5 (w : Wallet) (bens : List Beneficiary) (params : TxParams) :
    construct_psbt w [] bens params = (.error .NoInputs, ⟨[], []⟩) ∧
    ∀ c cs, (∀ x ∈ c :: cs, lookup_fails w x = true) →
      construct_psbt w (c :: cs) bens params =
        (.error (.UnknownInput c), ⟨[], []⟩) := by
  refine ⟨rfl, ?_⟩
  intro c cs hall
  exact construct_psbt_find_fail
    (List.find?_cons_of_pos _ (hall c (List.mem_cons_self c cs)))

theorem claim_c5_witness :
    construct_psbt wFail [] [] pT = (.error .NoInputs, ⟨[], []⟩) ∧
    construct_psbt wFail [coin1] [] pT =
      (.error (.UnknownInput coin1), ⟨[], []⟩) :=
  ⟨(claim_c5 wFail [] pT).1, (claim_c5 wFail [] pT).2 coin1 [] (by decide)⟩

/-- C6: when a requested outpoint's previous-transaction or UTXO lookup
fails, the construction fails with `UnknownInput` carrying the first such
outpoint in processing order, with no partial result and no effects. -/
theorem claim_c6 {w : Wallet} {coins : List Outpoint} {bens : List Beneficiary}
    {params : TxParams} {c : Outpoint}
    (h : coins.find? (lookup_fails w) = some c) :
    construct_psbt w coins bens params = (.error (.UnknownInput c), ⟨[], []⟩) :=
  construct_psbt_find_fail h

theorem claim_c6_witness :
    List.find? (lookup_fails wT) [coin1, coin0] = some coin0 ∧
    construct_psbt wT [coin1, coin0] [] pT =
      (.error (.UnknownInput coin0), ⟨[], []⟩) :=
  ⟨rfl, claim_c6 rfl⟩

/-- C3: with no `Max` beneficiaries, a residual strictly above the dust
limit produces a change output of exactly that residual at the next
derivation index of the change keychain (honoring `change_shift`), recorded
in `ChangeInfo` with an output index that exists in the produced
transaction; a residual at or below the dust limit produces no change
output and `meta.change` is `none`. -/
theorem claim_c3 {w : Wallet} {coins : List Outpoint} {bens : List Beneficiary}
    {params : TxParams} {psbt1 p2 : Psbt} {ov : Nat} {mi : List Nat}
    (h1 : add_inputs w params (init_psbt w params) coins = .ok psbt1)
    (h2 : psbt1.inputs.length ≠ 0)
    (h4 : add_outputs w psbt1 0 [] bens = .ok (p2, ov, mi))
    (hnomax : ∀ b ∈ bens, b.amount.is_max = false)
    (hov : ov ≤ psbt1.input_sum)
    (hfee : ov + params.fee ≤ psbt1.input_sum) :
    (w.dust_limit < psbt1.input_sum - ov - params.fee →
      construct_psbt w coins bens params =
        (.ok ({ p2 with outputs := p2.outputs ++
              [⟨w.change_spk (change_terminal_of w params),
                psbt1.input_sum - ov - params.fee⟩] },
            meta_with w params
              (some ⟨p2.outputs.length, change_terminal_of w params⟩)),
         ⟨[(params.change_keychain, params.change_shift)],
          [({ p2 with outputs := p2.outputs ++
              [⟨w.change_spk (change_terminal_of w params),
                psbt1.input_sum - ov - params.fee⟩] },
            meta_with w params
              (some ⟨p2.outputs.length, change_terminal_of w params⟩))]⟩)) ∧
    (psbt1.input_sum - ov - params.fee ≤ w.dust_limit →
      construct_psbt w coins bens params =
        (.ok (p2, meta_with w params none),
         ⟨[], [(p2, meta_with w params none)]⟩)) ∧
    (∀ q m ci, (construct_psbt w coins bens params).1 = .ok (q, m) →
      m.change = some ci → ci.vout < q.outputs.length) := by
  have hmi : mi = [] := by
    obtain ⟨-, -, hm, -⟩ := add_outputs_ok_spec h4
    rw [hm, maxPositions_nil_of_nomax _ hnomax]
    rfl
  subst hmi
  have hc := construct_psbt_eq_finish h1 h2 h4
  have hfin := (finish_spec w params psbt1.input_sum p2 ov []).2.2 hov hfee
  rw [distribute_max_nil] at hfin
  refine ⟨?_, ?_, ?_⟩
  · intro hdust
    rw [hc, hfin, add_change_gt hdust]
  · intro hdust
    rw [hc, hfin, add_change_le hdust]
  · intro q m ci hok hci
    by_cases hdust : w.dust_limit < psbt1.input_sum - ov - params.fee
    · rw [hc, hfin, add_change_gt hdust] at hok
      injection hok with hok
      injection hok with hq hm
      rw [← hm] at hci
      have hv : ci = ⟨p2.outputs.length, change_terminal_of w params⟩ := by
        injection hci with hci
        rw [← hci]
      rw [hv, ← hq]
      simp [meta_with]
    · rw [hc, hfin, add_change_le (by omega)] at hok
      injection hok with hok
      injection hok with hq hm
      rw [← hm] at hci
      exact Option.noConfusion hci

theorem claim_c3_witness :
    construct_psbt wT [coin1] [⟨addrOk, .Fixed 50000⟩] pT =
      (.ok ({ psbtW with outputs := [⟨201, 50000⟩, ⟨1007, 49000⟩] },
          meta_with wT pT (some ⟨1, ⟨1, 7⟩⟩)),
       ⟨[(1, true)],
        [({ psbtW with outputs := [⟨201, 50000⟩, ⟨1007, 49000⟩] },
          meta_with wT pT (some ⟨1, ⟨1, 7⟩⟩))]⟩) ∧
    construct_psbt wT [coin1] [⟨addrOk, .Fixed 98500⟩] pT =
      (.ok ({ psbtW with outputs := [⟨201, 98500⟩] }, meta_with wT pT none),
       ⟨[], [({ psbtW with outputs := [⟨201, 98500⟩] }, meta_with wT pT none)]⟩) := by
  constructor
  · exact (@claim_c3 wT [coin1] [⟨addrOk, .Fixed 50000⟩] pT psbtW
      { psbtW with outputs := [⟨201, 50000⟩] } 50000 []
      rfl (by decide) rfl (by decide) (by decide) (by decide)).1 (by decide)
  · exact (@claim_c3 wT [coin1] [⟨addrOk, .Fixed 98500⟩] pT psbtW
      { psbtW with outputs := [⟨201, 98500⟩] } 98500 []
      rfl (by decide) rfl (by decide) (by decide) (by decide)).2.1 (by decide)

/-- C10: an empty beneficiary list is accepted; with at least one resolved
input and `input_value` covering the fee, the construction succeeds with
zero beneficiary outputs, and the residual becomes a change output when
above the dust limit, or the transaction has zero outputs when not. -/
theorem claim_c10 {w : Wallet} {coins : List Outpoint} {params : TxParams}
    {psbt1 : Psbt}
    (h1 : add_inputs w params (init_psbt w params) coins = .ok psbt1)
    (h2 : psbt1.inputs.length ≠ 0)
    (hfee : params.fee ≤ psbt1.input_sum) :
    psbt1.outputs = [] ∧
    (w.dust_limit < psbt1.input_sum - params.fee →
      construct_psbt w coins [] params =
        (.ok ({ psbt1 with outputs :=
              [⟨w.change_spk (change_terminal_of w params),
                psbt1.input_sum - params.fee⟩] },
            meta_with w params (some ⟨0, change_terminal_of w params⟩)),
         ⟨[(params.change_keychain, params.change_shift)],
          [({ psbt1 with outputs :=
              [⟨w.change_spk (change_terminal_of w params),
                psbt1.input_sum - params.fee⟩] },
            meta_with w params (some ⟨0, change_terminal_of w params⟩))]⟩)) ∧
    (psbt1.input_sum - params.fee ≤ w.dust_limit →
      construct_psbt w coins [] params =
        (.ok (psbt1, meta_with w params none),
         ⟨[], [(psbt1, meta_with w params none)]⟩)) := by
  have houtputs : psbt1.outputs = [] := by
    obtain ⟨ho, -, -, -⟩ := add_inputs_ok_parts h1
    rw [ho]
    rfl
  have h4 : add_outputs w psbt1 0 [] [] = .ok (psbt1, 0, []) := rfl
  have hc := construct_psbt_eq_finish h1 h2 h4
  have hfin := (finish_spec w params psbt1.input_sum psbt1 0 []).2.2
    (Nat.zero_le _) (by omega)
  rw [distribute_max_nil] at hfin
  have hr : psbt1.input_sum - 0 - params.fee = psbt1.input_sum - params.fee := by
    omega
  rw [hr] at hfin
  refine ⟨houtputs, ?_, ?_⟩
  · intro hdust
    rw [hc, hfin, add_change_gt hdust, houtputs]
    simp
  · intro hdust
    rw [hc, hfin, add_change_le hdust]

theorem claim_c10_witness :
    construct_psbt wT [coin1] [] pT =
      (.ok ({ psbtW with outputs := [⟨1007, 99000⟩] },
          meta_with wT pT (some ⟨0, ⟨1, 7⟩⟩)),
       ⟨[(1, true)],
        [({ psbtW with outputs := [⟨1007, 99000⟩] },
          meta_with wT pT (some ⟨0, ⟨1, 7⟩⟩))]⟩) :=
  (@claim_c10 wT [coin1] pT psbtW rfl (by decide) (by decide)).2.1 (by decide)

/-- C7: amounts are resolved with `Max` as zero and summed with checked
addition; the first addition that would push the accumulated sum past the
satoshi ceiling aborts the construction with `Overflow` carrying the sum
accumulated before it, and no draft is returned. -/
theorem claim_c7 {w : Wallet} {coins : List Outpoint} {params : TxParams}
    {psbt1 : Psbt} {pre post : List Beneficiary} {b : Beneficiary}
    (h1 : add_inputs w params (init_psbt w params) coins = .ok psbt1)
    (h2 : psbt1.inputs.length ≠ 0)
    (hnets : ∀ x ∈ pre, x.address.network = w.network)
    (hbnet : b.address.network = w.network)
    (hpre : resolvedSum pre ≤ satCeiling)
    (hover : satCeiling < resolvedSum pre + resolve_amount b.amount) :
    construct_psbt w coins (pre ++ b :: post) params =
      (.error (.Overflow (resolvedSum pre)), ⟨[], []⟩) := by
  have hpre_ok := @add_outputs_eq_ok w pre psbt1 0 [] hnets (by omega)
  simp only [Nat.zero_add, List.nil_append] at hpre_ok
  have hstep : add_outputs w { psbt1 with outputs := psbt1.outputs ++ pre.map resOut }
      (resolvedSum pre) (maxPositions psbt1.outputs.length pre) (b :: post) =
      .error (.Overflow (resolvedSum pre)) := by
    rw [add_outputs_cons, if_neg (by simp [hbnet])]
    have hnone : checkedAdd (resolvedSum pre) (b.amount.unwrap_or 0) = none := by
      unfold checkedAdd
      unfold resolve_amount at hover
      rw [if_neg (by omega)]
    rw [hnone]
  have hout : add_outputs w psbt1 0 [] (pre ++ b :: post) =
      .error (.Overflow (resolvedSum pre)) := by
    have hsplit := add_outputs_append (w := w) pre (b :: post) psbt1 0 []
    rw [hpre_ok] at hsplit
    exact hsplit.trans hstep
  exact construct_psbt_output_error h1 h2 hout

theorem claim_c7_witness :
    construct_psbt wT [coin1]
      [⟨addrOk, .Fixed 2000000000000000⟩, ⟨addrOk, .Fixed 200000000000000⟩] pT =
      (.error (.Overflow 2000000000000000), ⟨[], []⟩) :=
  @claim_c7 wT [coin1] pT psbtW [⟨addrOk, .Fixed 2000000000000000⟩] []
    ⟨addrOk, .Fixed 200000000000000⟩ rfl (by decide) (by decide) (by decide)
    (by decide) (by decide)

/-- C8: beneficiaries are processed in order, and the first whose address
network differs from the wallet's aborts the construction with
`NetworkMismatch` carrying that address, regardless of the remaining
beneficiaries. -/
theorem claim_c8 {w : Wallet} {coins : List Outpoint} {params : TxParams}
    {psbt1 : Psbt} {pre post : List Beneficiary} {b : Beneficiary}
    (h1 : add_inputs w params (init_psbt w params) coins = .ok psbt1)
    (h2 : psbt1.inputs.length ≠ 0)
    (hnets : ∀ x ∈ pre, x.address.network = w.network)
    (hpre : resolvedSum pre ≤ satCeiling)
    (hbnet : b.address.network ≠ w.network) :
    construct_psbt w coins (pre ++ b :: post) params =
      (.error (.NetworkMismatch b.address), ⟨[], []⟩) := by
  have hpre_ok := @add_outputs_eq_ok w pre psbt1 0 [] hnets (by omega)
  simp only [Nat.zero_add, List.nil_append] at hpre_ok
  have hstep : add_outputs w { psbt1 with outputs := psbt1.outputs ++ pre.map resOut }
      (resolvedSum pre) (maxPositions psbt1.outputs.length pre) (b :: post) =
      .error (.NetworkMismatch b.address) := by
    rw [add_outputs_cons, if_pos hbnet]
  have hout : add_outputs w psbt1 0 [] (pre ++ b :: post) =
      .error (.NetworkMismatch b.address) := by
    have hsplit := add_outputs_append (w := w) pre (b :: post) psbt1 0 []
    rw [hpre_ok] at hsplit
    exact hsplit.trans hstep
  exact construct_psbt_output_error h1 h2 hout

theorem claim_c8_witness :
    construct_psbt wT [coin1]
      [⟨addrOk, .Fixed 100⟩, ⟨addrBad, .Fixed 5⟩, ⟨addrOk, .Fixed 200⟩] pT =
      (.error (.NetworkMismatch addrBad), ⟨[], []⟩) :=
  @claim_c8 wT [coin1] pT psbtW [⟨addrOk, .Fixed 100⟩] [⟨addrOk, .Fixed 200⟩]
    ⟨addrBad, .Fixed 5⟩ rfl (by decide) (by decide) (by decide) (by decide)

/-- C9: in any successful construction, the inputs' previous outpoints are
pairwise distinct, and every resolvable requested coin accounts for exactly
one input, however often it was requested: a repeated outpoint is silently
skipped. -/
theorem claim_c9 {w : Wallet} {coins : List Outpoint} {bens : List Beneficiary}
    {params : TxParams} {psbt : Psbt} {meta : PsbtMeta} {eff : Effects}
    {c : Outpoint} {t : Nat} {u : Utxo} {s : Nat}
    (h : construct_psbt w coins bens params = (.ok (psbt, meta), eff))
    (hc : c ∈ coins) (hp : w.prev_tx c.txid = some t)
    (hu : w.utxo c = some (u, s)) :
    (psbt.inputs.map PsbtInput.previous_outpoint).count u.outpoint = 1 ∧
    (psbt.inputs.map PsbtInput.previous_outpoint).Nodup := by
  obtain ⟨psbt1, hI, h2, hinp⟩ := construct_ok_inputs h
  have hnd : (psbt1.inputs.map PsbtInput.previous_outpoint).Nodup :=
    add_inputs_nodup hI (by simp [init_psbt])
  have hmem : u.outpoint ∈ psbt1.inputs.map PsbtInput.previous_outpoint :=
    add_inputs_mem hI hc hp hu
  rw [hinp]
  exact ⟨List.count_eq_one_of_mem hnd hmem, hnd⟩

theorem claim_c9_witness :
    construct_psbt wT [coin1, coin1] [] pT =
      (.ok (psbtChg, metaChg), ⟨[(1, true)], [(psbtChg, metaChg)]⟩) ∧
    (psbtChg.inputs.map PsbtInput.previous_outpoint).count ⟨1, 0⟩ = 1 := by
  refine ⟨rfl, ?_⟩
  exact (@claim_c9 wT [coin1, coin1] [] pT psbtChg metaChg
    ⟨[(1, true)], [(psbtChg, metaChg)]⟩ coin1 10 ⟨⟨1, 0⟩, 100000, ⟨0, 5⟩⟩ 77
    rfl (by decide) rfl rfl).1

/-- C1: in any successful construction with n ≥ 1 `Max` beneficiaries, each
`Max` beneficiary's output is overwritten with ⌊remaining / n⌋ where
`remaining = input_value − (sum of fixed amounts) − fee`, the fixed outputs
keep their amounts, the total distributed is `n · ⌊remaining / n⌋ ≤
remaining` (the division remainder is absorbed into the fee, not
redistributed), and no change output is produced: `meta.change` is `none`. -/
theorem claim_c1 {w : Wallet} {coins : List Outpoint} {bens : List Beneficiary}
    {params : TxParams} {psbt1 psbt : Psbt} {meta : PsbtMeta} {eff : Effects}
    (h1 : add_inputs w params (init_psbt w params) coins = .ok psbt1)
    (h3 : construct_psbt w coins bens params = (.ok (psbt, meta), eff))
    (hn : 0 < bens.countP (fun b => b.amount.is_max)) :
    meta.change = none ∧
    psbt.outputs = bens.map (fun b => if b.amount.is_max = true
        then ⟨b.script_pubkey,
          (psbt1.input_sum - resolvedSum bens - params.fee) /
            bens.countP (fun x => x.amount.is_max)⟩
        else resOut b) ∧
    (psbt.outputs.map PsbtOutput.amount).sum =
      resolvedSum bens + bens.countP (fun b => b.amount.is_max) *
        ((psbt1.input_sum - resolvedSum bens - params.fee) /
          bens.countP (fun b => b.amount.is_max)) ∧
    bens.countP (fun b => b.amount.is_max) *
        ((psbt1.input_sum - resolvedSum bens - params.fee) /
          bens.countP (fun b => b.amount.is_max)) ≤
      psbt1.input_sum - resolvedSum bens - params.fee := by
  obtain ⟨psbt1b, p2, ov, mi, hI, h2, hO, hF⟩ := construct_ok_full h3
  rw [h1] at hI
  injection hI with hI
  subst hI
  have hout1 : psbt1.outputs = [] := by
    obtain ⟨ho, -, -, -⟩ := add_inputs_ok_parts h1
    rw [ho]
    rfl
  obtain ⟨hq, ha, hm, -⟩ := add_outputs_ok_spec hO
  have hp2out : p2.outputs = bens.map resOut := by
    rw [hq]
    dsimp only
    rw [hout1]
    rfl
  have hmi : mi = maxPositions 0 bens := by
    rw [hm, hout1]
    rfl
  have hov : ov = resolvedSum bens := by
    rw [ha]
    omega
  have hlen : mi.length = bens.countP (fun b => b.amount.is_max) := by
    rw [hmi, length_maxPositions]
  have hne : ¬ mi.isEmpty = true := by
    intro hemp
    rw [List.isEmpty_iff] at hemp
    rw [hemp] at hlen
    simp at hlen
    omega
  obtain ⟨hov_le, hfee_le⟩ := finish_ok_inv hF
  have hfin := (finish_spec w params psbt1.input_sum p2 ov mi).2.2 hov_le hfee_le
  rw [hfin] at hF
  have hdm : distribute_max p2 mi (psbt1.input_sum - ov - params.fee) =
      ({ p2 with outputs := p2.outputs.enum.map (fun io =>
          if io.1 ∈ mi then
            { io.2 with amount := (psbt1.input_sum - ov - params.fee) / mi.length }
          else io.2) }, 0) := by
    unfold distribute_max
    rw [if_neg hne]
  rw [hdm] at hF
  dsimp only at hF
  rw [add_change_le (Nat.zero_le _)] at hF
  injection hF with hF1 hF2
  injection hF1 with hF1
  injection hF1 with hpsbt hmeta
  have houts : psbt.outputs = bens.map (fun b => if b.amount.is_max = true
      then ⟨b.script_pubkey,
        (psbt1.input_sum - resolvedSum bens - params.fee) /
          bens.countP (fun x => x.amount.is_max)⟩
      else resOut b) := by
    rw [← hpsbt]
    dsimp only
    rw [hp2out, hmi, hov, length_maxPositions]
    exact overwritten_outputs bens _
  refine ⟨?_, houts, ?_, ?_⟩
  · rw [← hmeta]
    rfl
  · rw [houts]
    exact sum_overwritten bens _
  · rw [Nat.mul_comm]
    exact Nat.div_mul_le_self _ _

theorem claim_c1_witness :
    construct_psbt wT [coin1] [⟨addrOk, .Fixed 50000⟩, ⟨addrOk, .Max⟩] pT =
      (.ok ({ psbtW with outputs := [⟨201, 50000⟩, ⟨201, 49000⟩] },
          meta_with wT pT none),
       ⟨[], [({ psbtW with outputs := [⟨201, 50000⟩, ⟨201, 49000⟩] },
          meta_with wT pT none)]⟩) ∧
    (meta_with wT pT none).change = none := by
  refine ⟨rfl, ?_⟩
  exact (@claim_c1 wT [coin1] [⟨addrOk, .Fixed 50000⟩, ⟨addrOk, .Max⟩] pT psbtW
    { psbtW with outputs := [⟨201, 50000⟩, ⟨201, 49000⟩] } (meta_with wT pT none)
    ⟨[], [({ psbtW with outputs := [⟨201, 50000⟩, ⟨201, 49000⟩] },
      meta_with wT pT none)]⟩
    rfl rfl (by decide)).1

end BpStd
